import Mathlib

/-!
Shallow embedding of the protover crate (src/rust/protover/lib.rs).

Rust strings are modelled as lists of characters (Str), u32 values as
natural numbers with explicit bounds where parsing or overflow matters,
HashMap values as association lists, and HashSet<u32> as Finset.
All definitions are fuel-free or fuel-structural so that concrete inputs
evaluate by kernel reduction.
-/

abbrev Str : Type := List Char

deriving instance DecidableEq for Except

/-- Model of Rust str.split with a one-character pattern: splits at every
separator occurrence, keeping empty pieces; the result is never empty. -/
def splitOnP (p : Char → Bool) : Str → List Str
  | [] => [[]]
  | c :: rest =>
    match splitOnP p rest with
    | [] => [[]]
    | piece :: pieces => if p c then [] :: piece :: pieces else (c :: piece) :: pieces

def splitOnChar (sep : Char) (s : Str) : List Str := splitOnP (fun c => c == sep) s

/-- Model of Rust char::is_whitespace (White_Space property). -/
def isRustWhitespace (c : Char) : Bool :=
  let n := c.toNat
  (9 ≤ n && n ≤ 13) || n == 32 || n == 133 || n == 160 || n == 5760 ||
    (8192 ≤ n && n ≤ 8202) || n == 8232 || n == 8233 || n == 8239 || n == 8287 ||
    n == 12288

/-- Model of Rust str.split_whitespace: whitespace-run separated pieces,
with no empty pieces. -/
def splitWhitespace (s : Str) : List Str :=
  (splitOnP isRustWhitespace s).filter (fun piece => !piece.isEmpty)

/-- Model of Rust slice/Vec join with a separator. -/
def joinSep (sep : Str) : List Str → Str
  | [] => []
  | [piece] => piece
  | piece :: rest => piece ++ sep ++ joinSep sep rest

/-- Model of Rust str.splitn(2, sep): the text before the first separator
and, when a separator occurs, the remainder after it. -/
def splitn2 (sep : Char) : Str → Str × Option Str
  | [] => ([], none)
  | c :: rest =>
    if c == sep then ([], some rest)
    else
      let r := splitn2 sep rest
      (c :: r.1, r.2)

/-- Model of Vec::dedup: removes consecutive duplicates only. -/
def rustDedup : List ℕ → List ℕ
  | [] => []
  | [a] => [a]
  | a :: b :: rest => if a = b then rustDedup (b :: rest) else a :: rustDedup (b :: rest)

/-- One decimal digit as a character. -/
def decDigitChar (d : ℕ) : Char := Char.ofNat (48 + d)

/-- Decimal digits of n, most significant first; fuel-structural form of the
printing loop (fuel n suffices because n / 10 < n for positive n). -/
def u32ToStringAux : ℕ → ℕ → Str
  | 0, _ => []
  | fuel + 1, n =>
    if n = 0 then [] else u32ToStringAux fuel (n / 10) ++ [decDigitChar (n % 10)]

/-- Model of u32 to_string / Display (decimal). -/
def u32ToString (n : ℕ) : Str := if n = 0 then ['0'] else u32ToStringAux n n

/-- Numeric value of a decimal digit character. -/
def digitVal (c : Char) : Option ℕ :=
  if 48 ≤ c.toNat && c.toNat ≤ 57 then some (c.toNat - 48) else none

def parseDigitsStep (acc : Option ℕ) (c : Char) : Option ℕ :=
  match acc, digitVal c with
  | some a, some d => some (a * 10 + d)
  | _, _ => none

/-- Model of u32::from_str and u32::from_str_radix(s, 10): an optional
leading plus sign, then at least one decimal digit, value below 2^32. -/
def u32FromStr (s : Str) : Option ℕ :=
  let digitsPart := if s.head? = some '+' then s.tail else s
  if digitsPart.isEmpty then none
  else
    match digitsPart.foldl parseDigitsStep (some 0) with
    | some n => if n < 2 ^ 32 then some n else none
    | none => none

/-- Subprotocols in Tor (enum Proto). -/
inductive Proto : Type
  | Cons
  | Desc
  | DirCache
  | HSDir
  | HSIntro
  | HSRend
  | Link
  | LinkAuth
  | Microdesc
  | Relay
  deriving DecidableEq

/-- Model of impl FromStr for Proto. -/
def protoFromStr (s : Str) : Except String Proto :=
  if s = ("Cons").toList then .ok .Cons
  else if s = ("Desc").toList then .ok .Desc
  else if s = ("DirCache").toList then .ok .DirCache
  else if s = ("HSDir").toList then .ok .HSDir
  else if s = ("HSIntro").toList then .ok .HSIntro
  else if s = ("HSRend").toList then .ok .HSRend
  else if s = ("Link").toList then .ok .Link
  else if s = ("LinkAuth").toList then .ok .LinkAuth
  else if s = ("Microdesc").toList then .ok .Microdesc
  else if s = ("Relay").toList then .ok .Relay
  else .error ("Not a valid protocol type")

def MAX_PROTOCOLS_TO_EXPAND : ℕ := 500

/-- Currently supported protocols and their versions (SUPPORTED_PROTOCOLS). -/
def SUPPORTED_PROTOCOLS : List Str :=
  [("Cons=1-2").toList, ("Desc=1-2").toList, ("DirCache=1-2").toList,
    ("HSDir=1-2").toList, ("HSIntro=3-4").toList, ("HSRend=1-2").toList,
    ("Link=1-4").toList, ("LinkAuth=1,3").toList, ("Microdesc=1-2").toList,
    ("Relay=1-2").toList]

/-- Model of expand_version_range: "low-high" to the inclusive list of
values ((lower...higher).collect()); an inverted range collects nothing. -/
def expandVersionRange (range : Str) : Except String (List ℕ) :=
  if range.isEmpty then .error ("version string empty")
  else
    match splitOnChar '-' range with
    | [] => .error ("cannot parse protocol range lower bound")
    | lowerString :: rest =>
      match u32FromStr lowerString with
      | none => .error ("cannot parse protocol range lower bound")
      | some lower =>
        match rest with
        | [] => .error ("cannot parse protocol range upper bound")
        | higherString :: _ =>
          match u32FromStr higherString with
          | none => .error ("cannot parse protocol range upper bound")
          | some higher => .ok (List.range' lower (higher + 1 - lower))

/-- The for loop of get_versions over the comma-separated pieces: each piece
pushes its value(s) in front of the accumulator (versions.insert(0, p)),
then the accumulator is dedup-ed and checked against the expansion cap. -/
def getVersionsLoop : List Str → List ℕ → Except String (List ℕ)
  | [], versions => .ok versions
  | piece :: rest, versions =>
    let pushed : Except String (List ℕ) :=
      if '-' ∈ piece then
        match expandVersionRange piece with
        | .error e => .error e
        | .ok ps => .ok (ps.foldl (fun acc p => p :: acc) versions)
      else
        match u32FromStr piece with
        | some n => .ok (n :: versions)
        | none => .error ("invalid protocol entry")
    match pushed with
    | .error e => .error e
    | .ok vs =>
      let vs2 := rustDedup vs
      if MAX_PROTOCOLS_TO_EXPAND < vs2.length then .error ("Too many versions to expand")
      else getVersionsLoop rest vs2

/-- Model of get_versions. -/
def getVersions (versionString : Str) : Except String (List ℕ) :=
  if versionString.isEmpty then .error ("version string is empty")
  else
    match getVersionsLoop (splitOnChar ',' versionString) [] with
    | .error e => .error e
    | .ok versions => .ok (List.insertionSort (fun a b => a ≤ b) versions)

/-- Model of get_proto_and_vers: split a single entry at the first '=',
parse the version list, then the protocol name (in that order). -/
def getProtoAndVers (strP : Str) : Except String (Proto × List ℕ) :=
  let parts := splitn2 '=' strP
  match parts.2 with
  | none => .error ("invalid protover entry")
  | some vers =>
    match getVersions vers with
    | .error e => .error e
    | .ok versions =>
      match protoFromStr parts.1 with
      | .error e => .error e
      | .ok protoName => .ok (protoName, versions)

/-- Association-list lookup (model of HashMap lookup / indexing). -/
def assocLookup {α β : Type} [DecidableEq α] (k : α) : List (α × β) → Option β
  | [] => none
  | kv :: rest => if kv.1 = k then some kv.2 else assocLookup k rest

/-- Model of HashMap::insert: replaces the value at an existing key,
otherwise adds the key. -/
def hmInsert {α β : Type} [DecidableEq α] (k : α) (v : β) :
    List (α × β) → List (α × β)
  | [] => [(k, v)]
  | kv :: rest => if kv.1 = k then (k, v) :: rest else kv :: hmInsert k v rest

def parseProtocolsAux :
    List Str → List (Proto × List ℕ) → Except String (List (Proto × List ℕ))
  | [], parsed => .ok parsed
  | subproto :: rest, parsed =>
    match getProtoAndVers subproto with
    | .error e => .error e
    | .ok nv => parseProtocolsAux rest (hmInsert nv.1 nv.2 parsed)

/-- Model of parse_protocols. -/
def parseProtocols (protocols : List Str) : Except String (List (Proto × List ℕ)) :=
  parseProtocolsAux protocols []

/-- Model of parse_protocols_from_string: split on single spaces, strict. -/
def parseProtocolsFromString (protocolString : Str) :
    Except String (List (Proto × List ℕ)) :=
  parseProtocols (splitOnChar ' ' protocolString)

/-- Model of tor_supported. -/
def torSupported : Except String (List (Proto × List ℕ)) :=
  parseProtocols SUPPORTED_PROTOCOLS

/-- Model of contains_only_ssupported_protocols. The none arm of the lookup
models the HashMap index currently_supported[&name]; it is unreachable
because torSupported has an entry for every Proto. -/
def containsOnlySsupportedProtocols (strV : Str) : Bool :=
  match getProtoAndVers strV with
  | .error _ => false
  | .ok nv =>
    match torSupported with
    | .error _ => false
    | .ok currentlySupported =>
      match assocLookup nv.1 currentlySupported with
      | none => false
      | some supp => (nv.2.filter (fun x => decide (x ∉ supp))).isEmpty

/-- Model of all_supported. -/
def allSupported (protocols : Str) : Bool × Str :=
  let unsupported :=
    (splitWhitespace protocols).filter (fun v => !containsOnlySsupportedProtocols v)
  (unsupported.isEmpty, joinSep ([' ']) unsupported)

/-- Model of protover_string_supports_protocol. The none result models the
panic of the HashMap index supported[&proto] when the successfully parsed
list has no entry for proto. -/
def protoverStringSupportsProtocol (list : Str) (proto : Proto) (vers : ℕ) :
    Option Bool :=
  match parseProtocolsFromString list with
  | .error _ => some false
  | .ok supported =>
    match assocLookup proto supported with
    | none => none
    | some vs => some (decide (vers ∈ vs))

/-- Inner loop of find_range. -/
def findRangeGo (rangeEnd : ℕ) (hasRange : Bool) : List ℕ → Bool × ℕ
  | [] => (hasRange, rangeEnd)
  | n :: ns => if n = rangeEnd + 1 then findRangeGo n true ns else (hasRange, rangeEnd)

/-- Model of find_range. -/
def findRange (list : List ℕ) : Bool × ℕ :=
  match list with
  | [] => (false, 0)
  | a :: rest => findRangeGo a false rest

/-- The while loop of contract_protocol_list, fuel-structural (fuel
list.length suffices because every iteration shortens the list). -/
def contractLoopAux : ℕ → List ℕ → List Str
  | 0, _ => []
  | _, [] => []
  | fuel + 1, current :: rest =>
    let fr := findRange (current :: rest)
    if fr.1 then
      (u32ToString current ++ '-' :: u32ToString fr.2) ::
        contractLoopAux fuel (rest.filter (fun x => decide (fr.2 < x)))
    else
      u32ToString current :: contractLoopAux fuel rest

def contractLoop (l : List ℕ) : List Str := contractLoopAux l.length l

/-- Model of contract_protocol_list on a HashSet<u32> (drain, sort, then the
greedy range-emitting loop, comma-joined). -/
def contractProtocolList (supportedSet : Finset ℕ) : Str :=
  joinSep ([',']) (contractLoop (supportedSet.sort (fun a b => a ≤ b)))

/-- Tolerant parse of one whitespace token of a report (the loop body of
parse_protocols_with_duplicates): name before the first '=', get_versions on
the rest; any failure skips the token. -/
def parseToken (x : Str) : Option (Str × List ℕ) :=
  let parts := splitn2 '=' x
  match parts.2 with
  | none => none
  | some v =>
    match getVersions v with
    | .error _ => none
    | .ok vers => some (parts.1, vers)

/-- The accumulation step of parse_protocols_with_duplicates: extend the
version list of an existing name, otherwise insert the new name. -/
def pwdInsert (name : Str) (vers : List ℕ) : List (Str × List ℕ) → List (Str × List ℕ)
  | [] => [(name, vers)]
  | kv :: rest =>
    if kv.1 = name then (kv.1, kv.2 ++ vers) :: rest else kv :: pwdInsert name vers rest

/-- Model of parse_protocols_with_duplicates (payload; every path in the
source returns Ok). -/
def parseProtocolsWithDuplicatesCore (protocols : List Str) : List (Str × List ℕ) :=
  ((protocols.map splitWhitespace).flatten).foldl
    (fun uniques x =>
      match parseToken x with
      | none => uniques
      | some nv => pwdInsert nv.1 nv.2 uniques) []

def parseProtocolsWithDuplicates (protocols : List Str) :
    Except String (List (Str × List ℕ)) :=
  .ok (parseProtocolsWithDuplicatesCore protocols)

/-- Model of the threshold as usize cast (i32 to 64-bit usize, two's
complement wrap-around). -/
def castUsize (t : Int) : ℕ := (t % (2 ^ 64 : Int)).toNat

/-- The meets_threshold accumulation of compute_vote for one protocol. -/
def meetsThreshold (versions : List ℕ) (threshold : Int) : Finset ℕ :=
  versions.foldl
    (fun s version =>
      if version ∈ s then s
      else if castUsize threshold ≤ versions.count version then insert version s
      else s) ∅

/-- Byte/codepoint lexicographic order on strings (Rust String Ord), as a
Boolean comparator. -/
def strLeB : Str → Str → Bool
  | [], _ => true
  | _ :: _, [] => false
  | a :: as, b :: bs => if a < b then true else if b < a then false else strLeB as bs

def StrLe (a b : Str) : Prop := strLeB a b = true

instance : DecidableRel StrLe := fun a b => by unfold StrLe; infer_instance

/-- Strict byte/codepoint lexicographic order. -/
def StrLt (a b : Str) : Prop := StrLe a b ∧ a ≠ b

/-- Model of write_vote_to_string: sort the keys, emit Name=versions pieces,
join with single spaces. getD models the infallible index vote[key]. -/
def writeVoteToString (vote : List (Str × Str)) : Str :=
  let keys := List.insertionSort StrLe (vote.map Prod.fst)
  joinSep ([' ']) (keys.map (fun key => key ++ '=' :: ((assocLookup key vote).getD [])))

/-- The final_output accumulation loop of compute_vote: keep a protocol only
when its contracted retained version list is non-empty. -/
def finalOutputList (protocols : List (Str × List ℕ)) (threshold : Int) :
    List (Str × Str) :=
  protocols.foldl
    (fun acc pv =>
      let contracted := contractProtocolList (meetsThreshold pv.2 threshold)
      if !contracted.isEmpty then hmInsert pv.1 contracted acc else acc) []

/-- Model of compute_vote. -/
def computeVote (protos : List Str) (threshold : Int) : Str :=
  if protos.isEmpty then []
  else
    match parseProtocolsWithDuplicates protos with
    | .error _ => []
    | .ok protocols => writeVoteToString (finalOutputList protocols threshold)

/-- The per-protocol version set retained by compute_vote (the contents of
meets_threshold for protocol name p). -/
def voteSet (protos : List Str) (threshold : Int) (p : Str) : Finset ℕ :=
  match assocLookup p (parseProtocolsWithDuplicatesCore protos) with
  | some versions => meetsThreshold versions threshold
  | none => ∅

/-- All (name, version) occurrences produced by the tolerant parse of the
reports, in order, duplicates preserved. -/
def parsedOccurrences (protos : List Str) : List (Str × ℕ) :=
  (((protos.map splitWhitespace).flatten).map
    (fun x =>
      match parseToken x with
      | none => ([] : List (Str × ℕ))
      | some nv => nv.2.map (fun v => (nv.1, v)))).flatten

/-- The number of occurrences of version v recorded for name p in an
accumulated tolerant-parse map (0 when p is absent). -/
def lookupCount (p : Str) (v : ℕ) (m : List (Str × List ℕ)) : ℕ :=
  match assocLookup p m with
  | some l => l.count v
  | none => 0

/-! ### Lemmas about the string primitives -/

theorem splitOnP_ne_nil (p : Char → Bool) (l : Str) : splitOnP p l ≠ [] := by
  cases l with
  | nil => simp [splitOnP]
  | cons c rest =>
    simp only [splitOnP]
    cases h : splitOnP p rest with
    | nil => simp
    | cons piece pieces =>
      by_cases hc : p c = true <;> simp [hc]

theorem splitOnP_sep (p : Char → Bool) (c : Char) (hc : p c = true) (x y : Str) :
    splitOnP p (x ++ c :: y) = splitOnP p x ++ splitOnP p y := by
  induction x with
  | nil =>
    cases hy : splitOnP p y with
    | nil => exact absurd hy (splitOnP_ne_nil p y)
    | cons piece pieces => simp [splitOnP, hy, hc]
  | cons d x ih =>
    cases hx : splitOnP p x with
    | nil => exact absurd hx (splitOnP_ne_nil p x)
    | cons piece pieces =>
      simp only [List.cons_append, splitOnP]
      by_cases hd : p d = true <;> simp [hd, ih, hx]

theorem splitOnP_eq_self (p : Char → Bool) (l : Str) (h : ∀ ch ∈ l, p ch = false) :
    splitOnP p l = [l] := by
  induction l with
  | nil => rfl
  | cons c rest ih =>
    have hc : p c = false := h c (by simp)
    have hr := ih (fun ch hm => h ch (by simp [hm]))
    simp [splitOnP, hr, hc]

theorem splitOnP_all_sep (p : Char → Bool) (l : Str) (h : ∀ ch ∈ l, p ch = true) :
    ∀ piece ∈ splitOnP p l, piece = [] := by
  induction l with
  | nil =>
    intro piece hmem
    simp only [splitOnP, List.mem_singleton] at hmem
    exact hmem
  | cons c rest ih =>
    intro piece hmem
    have hc : p c = true := h c (by simp)
    have hr := ih (fun ch hch => h ch (by simp [hch]))
    cases hx : splitOnP p rest with
    | nil => exact absurd hx (splitOnP_ne_nil p rest)
    | cons q qs =>
      rw [show splitOnP p (c :: rest) = [] :: q :: qs by simp [splitOnP, hx, hc]] at hmem
      rcases List.mem_cons.mp hmem with hmem | hmem
      · exact hmem
      · exact hr piece (by rw [hx]; exact hmem)

theorem splitOnChar_sep (sep : Char) (x y : Str) :
    splitOnChar sep (x ++ sep :: y) = splitOnChar sep x ++ splitOnChar sep y :=
  splitOnP_sep _ sep (by simp) x y

theorem splitOnChar_eq_self (sep : Char) (l : Str) (h : ∀ ch ∈ l, ch ≠ sep) :
    splitOnChar sep l = [l] :=
  splitOnP_eq_self _ l (fun ch hm => by simpa using h ch hm)

theorem joinSep_split (p : Char → Bool) (sep : Char) (hsep : p sep = true)
    (ps : List Str) (hne : ps ≠ [])
    (hp : ∀ piece ∈ ps, ∀ ch ∈ piece, p ch = false) :
    splitOnP p (joinSep [sep] ps) = ps := by
  induction ps with
  | nil => exact absurd rfl hne
  | cons piece rest ih =>
    cases rest with
    | nil => exact splitOnP_eq_self p piece (hp piece (by simp))
    | cons q qs =>
      have hjoin : joinSep [sep] (piece :: q :: qs) = piece ++ sep :: joinSep [sep] (q :: qs) := by
        simp [joinSep]
      rw [hjoin, splitOnP_sep p sep hsep,
        splitOnP_eq_self p piece (hp piece (by simp)),
        ih (by simp) (fun pc hm ch hc => hp pc (by simp [hm]) ch hc)]
      rfl

theorem joinSepChar_split (sep : Char) (ps : List Str) (hne : ps ≠ [])
    (hp : ∀ piece ∈ ps, ∀ ch ∈ piece, ch ≠ sep) :
    splitOnChar sep (joinSep [sep] ps) = ps :=
  joinSep_split _ sep (by simp) ps hne
    (fun piece hm ch hc => by simpa using hp piece hm ch hc)

theorem splitWhitespace_all_ws (s : Str) (h : ∀ c ∈ s, isRustWhitespace c = true) :
    splitWhitespace s = [] := by
  unfold splitWhitespace
  rw [List.filter_eq_nil_iff]
  intro piece hm
  have := splitOnP_all_sep isRustWhitespace s h piece hm
  simp [this]

/-! ### Lemmas about decimal printing and parsing -/

theorem u32ToStringAux_zero (fuel : ℕ) : u32ToStringAux fuel 0 = [] := by
  cases fuel <;> simp [u32ToStringAux]

theorem u32ToStringAux_ne_nil (fuel n : ℕ) (h0 : 0 < n) (h : n ≤ fuel) :
    u32ToStringAux fuel n ≠ [] := by
  cases fuel with
  | zero => omega
  | succ fuel => simp [u32ToStringAux, Nat.pos_iff_ne_zero.mp h0]

theorem u32ToStringAux_digits (fuel : ℕ) :
    ∀ n, n ≤ fuel → ∀ c ∈ u32ToStringAux fuel n, ∃ d, d < 10 ∧ c = decDigitChar d := by
  induction fuel with
  | zero => intro n h c hc; simp [u32ToStringAux] at hc
  | succ fuel ih =>
    intro n hn c hc
    by_cases h0 : n = 0
    · simp [u32ToStringAux, h0] at hc
    · simp only [u32ToStringAux, if_neg h0, List.mem_append, List.mem_singleton] at hc
      rcases hc with hc | hc
      · have hdiv : n / 10 ≤ fuel := by
          have := Nat.div_lt_self (Nat.pos_of_ne_zero h0) (by norm_num : 1 < 10)
          omega
        exact ih (n / 10) hdiv c hc
      · exact ⟨n % 10, Nat.mod_lt _ (by norm_num), hc⟩

theorem decDigitChar_toNat (d : ℕ) (hd : d < 10) : (decDigitChar d).toNat = 48 + d := by
  interval_cases d <;> decide

theorem u32ToString_digit (n : ℕ) :
    ∀ c ∈ u32ToString n, 48 ≤ c.toNat ∧ c.toNat ≤ 57 := by
  intro c hc
  by_cases h0 : n = 0
  · subst h0
    rw [show u32ToString 0 = ['0'] from rfl] at hc
    simp only [List.mem_singleton] at hc
    subst hc
    decide
  · rw [u32ToString, if_neg h0] at hc
    obtain ⟨d, hd, rfl⟩ := u32ToStringAux_digits n n le_rfl c hc
    rw [decDigitChar_toNat d hd]
    omega

theorem u32ToString_ne (n : ℕ) (c : Char) (hc : c.toNat < 48 ∨ 57 < c.toNat) :
    ∀ ch ∈ u32ToString n, ch ≠ c := by
  intro ch hm he
  have := u32ToString_digit n ch hm
  rw [he] at this
  omega

theorem u32ToString_ne_nil (n : ℕ) : u32ToString n ≠ [] := by
  by_cases h0 : n = 0
  · simp [u32ToString, h0]
  · rw [u32ToString, if_neg h0]
    exact u32ToStringAux_ne_nil n n (Nat.pos_of_ne_zero h0) le_rfl

theorem digitVal_decDigitChar (d : ℕ) (hd : d < 10) :
    digitVal (decDigitChar d) = some d := by
  interval_cases d <;> decide

theorem foldl_parse_u32ToStringAux (fuel : ℕ) :
    ∀ n a, 0 < n → n ≤ fuel →
      (u32ToStringAux fuel n).foldl parseDigitsStep (some a) =
        some (a * 10 ^ (u32ToStringAux fuel n).length + n) := by
  induction fuel with
  | zero => intro n a h0 h; omega
  | succ fuel ih =>
    intro n a h0 hn
    have hne : n ≠ 0 := Nat.pos_iff_ne_zero.mp h0
    rw [show u32ToStringAux (fuel + 1) n =
        u32ToStringAux fuel (n / 10) ++ [decDigitChar (n % 10)] by
      simp [u32ToStringAux, hne]]
    have hmod10 : n % 10 < 10 := Nat.mod_lt _ (by norm_num)
    by_cases hq : n / 10 = 0
    · have hlt : n < 10 := by omega
      have hmodeq : n % 10 = n := Nat.mod_eq_of_lt hlt
      rw [hq, u32ToStringAux_zero]
      simp [parseDigitsStep, hmodeq, digitVal_decDigitChar n hlt, pow_one]
    · rw [List.foldl_append]
      have hdiv : n / 10 ≤ fuel := by
        have := Nat.div_lt_self h0 (by norm_num : 1 < 10)
        omega
      rw [ih (n / 10) a (Nat.pos_of_ne_zero hq) hdiv]
      simp only [List.foldl_cons, List.foldl_nil, parseDigitsStep,
        digitVal_decDigitChar (n % 10) hmod10, List.length_append, List.length_singleton]
      congr 1
      have hdm : 10 * (n / 10) + n % 10 = n := Nat.div_add_mod n 10
      set L := (u32ToStringAux fuel (n / 10)).length with hL
      calc (a * 10 ^ L + n / 10) * 10 + n % 10
          = a * (10 ^ L * 10) + (10 * (n / 10) + n % 10) := by ring
        _ = a * 10 ^ (L + 1) + n := by rw [hdm, pow_succ]

theorem u32FromStr_roundtrip (n : ℕ) (h : n < 2 ^ 32) :
    u32FromStr (u32ToString n) = some n := by
  by_cases h0 : n = 0
  · subst h0; decide
  · rw [u32ToString, if_neg h0]
    cases haux : u32ToStringAux n n with
    | nil => exact absurd haux (u32ToStringAux_ne_nil n n (Nat.pos_of_ne_zero h0) le_rfl)
    | cons c cs =>
      have hcdigit : 48 ≤ c.toNat ∧ c.toNat ≤ 57 := by
        have hdig := u32ToString_digit n
        rw [u32ToString, if_neg h0, haux] at hdig
        exact hdig c (by simp)
      have hplus : ¬ ((c :: cs : Str).head? = some ('+')) := by
        simp only [List.head?_cons, Option.some_inj]
        intro he
        rw [he] at hcdigit
        revert hcdigit
        decide
      unfold u32FromStr
      rw [if_neg hplus, if_neg (by simp)]
      rw [← haux, foldl_parse_u32ToStringAux n n 0 (Nat.pos_of_ne_zero h0) le_rfl]
      norm_num at h
      simp [h]

/-! ### expand_version_range on well-formed range strings -/

theorem expandVersionRange_eval (low high : ℕ) (hl : low < 2 ^ 32) (hh : high < 2 ^ 32) :
    expandVersionRange (u32ToString low ++ '-' :: u32ToString high) =
      .ok (List.range' low (high + 1 - low)) := by
  have hsplit : splitOnChar '-' (u32ToString low ++ '-' :: u32ToString high) =
      [u32ToString low, u32ToString high] := by
    rw [splitOnChar_sep,
      splitOnChar_eq_self _ _ (u32ToString_ne low '-' (by decide)),
      splitOnChar_eq_self _ _ (u32ToString_ne high '-' (by decide))]
    rfl
  have hne : (u32ToString low ++ '-' :: u32ToString high) ≠ [] := by simp
  unfold expandVersionRange
  rw [if_neg (by simp [List.isEmpty_iff, hne]), hsplit]
  simp [u32FromStr_roundtrip low hl, u32FromStr_roundtrip high hh]

/-! ### Vec::dedup and the push-front fold -/

theorem rustDedup_eq_self (l : List ℕ) (h : l.Nodup) : rustDedup l = l := by
  induction l with
  | nil => rfl
  | cons a rest ih =>
    cases rest with
    | nil => rfl
    | cons b t =>
      have hab : a ≠ b := by
        intro he
        subst he
        exact (List.nodup_cons.mp h).1 (by simp)
      rw [show rustDedup (a :: b :: t) = a :: rustDedup (b :: t) by simp [rustDedup, hab],
        ih (List.Nodup.of_cons h)]

theorem foldl_push_front (l acc : List ℕ) :
    l.foldl (fun acc p => p :: acc) acc = l.reverse ++ acc := by
  induction l generalizing acc with
  | nil => rfl
  | cons x xs ih => simp [List.foldl_cons, ih, List.reverse_cons, List.append_assoc]

/-! ### find_range characterization -/

theorem findRangeGo_true_fst (rest : List ℕ) :
    ∀ b, (findRangeGo b true rest).1 = true := by
  induction rest with
  | nil => intro b; rfl
  | cons n ns ih =>
    intro b
    by_cases hn : n = b + 1 <;> simp [findRangeGo, hn, ih]

theorem findRangeGo_true (rest : List ℕ) :
    ∀ b e, findRangeGo b true rest = (true, e) →
      b ≤ e ∧ ∃ tail, rest = List.range' (b + 1) (e - b) ++ tail := by
  induction rest with
  | nil =>
    intro b e h
    simp only [findRangeGo, Prod.mk.injEq, true_and] at h
    subst h
    exact ⟨le_rfl, [], by simp⟩
  | cons n ns ih =>
    intro b e h
    by_cases hn : n = b + 1
    · subst hn
      rw [show findRangeGo b true ((b + 1) :: ns) = findRangeGo (b + 1) true ns by
        simp [findRangeGo]] at h
      obtain ⟨hbe, tail, htail⟩ := ih (b + 1) e h
      refine ⟨by omega, tail, ?_⟩
      rw [show List.range' (b + 1) (e - b) = (b + 1) :: List.range' (b + 2) (e - (b + 1)) by
        rw [show e - b = (e - (b + 1)) + 1 by omega, List.range'_succ], List.cons_append,
        ← htail]
    · rw [show findRangeGo b true (n :: ns) = (true, b) by simp [findRangeGo, hn]] at h
      have he : e = b := by
        have := (Prod.mk.injEq _ _ _ _).mp h
        omega
      subst he
      exact ⟨le_rfl, n :: ns, by simp⟩

theorem findRange_run (a : ℕ) (rest : List ℕ) (e : ℕ)
    (h : findRange (a :: rest) = (true, e)) :
    a < e ∧ ∃ tail, rest = List.range' (a + 1) (e - a) ++ tail := by
  cases rest with
  | nil => simp [findRange, findRangeGo] at h
  | cons n ns =>
    by_cases hn : n = a + 1
    · subst hn
      rw [show findRange (a :: (a + 1) :: ns) = findRangeGo (a + 1) true ns by
        simp [findRange, findRangeGo]] at h
      obtain ⟨hbe, tail, htail⟩ := findRangeGo_true ns (a + 1) e h
      refine ⟨by omega, tail, ?_⟩
      rw [show List.range' (a + 1) (e - a) = (a + 1) :: List.range' (a + 2) (e - (a + 1)) by
        rw [show e - a = (e - (a + 1)) + 1 by omega, List.range'_succ], List.cons_append,
        ← htail]
    · rw [show findRange (a :: n :: ns) = (false, a) by simp [findRange, findRangeGo, hn]] at h
      simp at h

/-! ### Step lemmas for the get_versions loop -/

theorem getVersionsLoop_cons_bare (piece : Str) (rest : List Str) (acc : List ℕ) (n : ℕ)
    (hdash : '-' ∉ piece) (hparse : u32FromStr piece = some n)
    (hnodup : (n :: acc).Nodup) (hcap : acc.length + 1 ≤ 500) :
    getVersionsLoop (piece :: rest) acc = getVersionsLoop rest (n :: acc) := by
  simp only [getVersionsLoop, if_neg hdash, hparse]
  rw [rustDedup_eq_self _ hnodup]
  rw [if_neg (by simp [MAX_PROTOCOLS_TO_EXPAND]; omega)]

theorem getVersionsLoop_cons_range (piece : Str) (rest : List Str) (acc : List ℕ)
    (ps : List ℕ) (hdash : '-' ∈ piece) (hexp : expandVersionRange piece = .ok ps)
    (hnodup : (ps.reverse ++ acc).Nodup) (hcap : ps.length + acc.length ≤ 500) :
    getVersionsLoop (piece :: rest) acc = getVersionsLoop rest (ps.reverse ++ acc) := by
  simp only [getVersionsLoop, if_pos hdash, hexp, foldl_push_front]
  rw [rustDedup_eq_self _ hnodup]
  rw [if_neg (by simp [MAX_PROTOCOLS_TO_EXPAND]; omega)]

/-! ### The contract loop re-parses to the original sorted list -/

theorem getVersionsLoop_contract (fuel : ℕ) :
    ∀ (l acc : List ℕ),
      l.length ≤ fuel →
      List.Sorted (· < ·) l →
      (∀ x ∈ l, x < 2 ^ 32) →
      (l.reverse ++ acc).Nodup →
      l.length + acc.length ≤ 500 →
      getVersionsLoop (contractLoopAux fuel l) acc = .ok (l.reverse ++ acc) := by
  induction fuel with
  | zero =>
    intro l acc hlen _ _ _ _
    have hl : l = [] := List.length_eq_zero.mp (Nat.le_zero.mp hlen)
    subst hl
    rfl
  | succ fuel ih =>
    intro l acc hlen hsort hbound hnodup hcap
    cases l with
    | nil => rfl
    | cons a rest =>
      have ha32 : a < 2 ^ 32 := hbound a (by simp)
      have hrearr : (a :: rest).reverse ++ acc = rest.reverse ++ (a :: acc) := by
        simp [List.reverse_cons, List.append_assoc]
      cases hfr : findRange (a :: rest) with
      | mk hr e =>
        cases hr with
        | false =>
          have haux : contractLoopAux (fuel + 1) (a :: rest) =
              u32ToString a :: contractLoopAux fuel rest := by
            simp [contractLoopAux, hfr]
          rw [haux,
            getVersionsLoop_cons_bare (u32ToString a) _ acc a
              (fun hm => (u32ToString_ne a '-' (by decide)) '-' hm rfl)
              (u32FromStr_roundtrip a ha32)
              (List.Nodup.of_append_right (hrearr ▸ hnodup))
              (by simp at hcap; omega),
            ih rest (a :: acc) (by simp at hlen; omega) hsort.of_cons
              (fun x hx => hbound x (by simp [hx]))
              (hrearr ▸ hnodup) (by simp at hcap ⊢; omega),
            hrearr]
        | true =>
          obtain ⟨hae, tail, htail⟩ := findRange_run a rest e hfr
          have hdecomp : a :: rest = List.range' a (e + 1 - a) ++ tail := by
            rw [show List.range' a (e + 1 - a) = a :: List.range' (a + 1) (e - a) by
              rw [show e + 1 - a = (e - a) + 1 by omega, List.range'_succ], htail,
              List.cons_append]
          have hlen_decomp : rest.length = (e - a) + tail.length := by
            rw [htail]
            simp
          have hrest_sorted : List.Pairwise (fun x y => x < y)
              (List.range' (a + 1) (e - a) ++ tail) := by
            have hs := hsort.of_cons
            rwa [htail] at hs
          have hmem_e : e ∈ List.range' (a + 1) (e - a) :=
            List.mem_range'_1.mpr ⟨by omega, by omega⟩
          have htail_gt : ∀ x ∈ tail, e < x :=
            fun x hx => (List.pairwise_append.mp hrest_sorted).2.2 e hmem_e x hx
          have hfilter : rest.filter (fun x => decide (e < x)) = tail := by
            rw [htail, List.filter_append]
            have h1 : (List.range' (a + 1) (e - a)).filter (fun x => decide (e < x)) = [] := by
              rw [List.filter_eq_nil_iff]
              intro x hx
              have hxm := List.mem_range'_1.mp hx
              simp only [decide_eq_true_eq]
              omega
            have h2 : tail.filter (fun x => decide (e < x)) = tail := by
              rw [List.filter_eq_self]
              intro x hx
              simp only [decide_eq_true_eq]
              exact htail_gt x hx
            rw [h1, h2, List.nil_append]
          have he32 : e < 2 ^ 32 := hbound e (by
            rw [hdecomp]
            exact List.mem_append_left _ (by
              rw [show e + 1 - a = (e - a) + 1 by omega, List.range'_succ]
              exact List.mem_cons_of_mem a hmem_e))
          have hrearr2 : (a :: rest).reverse ++ acc =
              tail.reverse ++ ((List.range' a (e + 1 - a)).reverse ++ acc) := by
            rw [hdecomp, List.reverse_append, List.append_assoc]
          have haux : contractLoopAux (fuel + 1) (a :: rest) =
              (u32ToString a ++ '-' :: u32ToString e) ::
                contractLoopAux fuel (rest.filter (fun x => decide (e < x))) := by
            simp [contractLoopAux, hfr]
          rw [haux,
            getVersionsLoop_cons_range _ _ acc (List.range' a (e + 1 - a))
              (by simp)
              (expandVersionRange_eval a e ha32 he32)
              (List.Nodup.of_append_right (hrearr2 ▸ hnodup))
              (by
                simp only [List.length_range']
                simp at hcap
                omega),
            hfilter,
            ih tail ((List.range' a (e + 1 - a)).reverse ++ acc)
              (by simp at hlen; omega)
              ((List.pairwise_append.mp hrest_sorted).2.1)
              (fun x hx => hbound x (by
                rw [hdecomp]
                exact List.mem_append_right _ hx))
              (hrearr2 ▸ hnodup)
              (by
                simp only [List.length_append, List.length_reverse, List.length_range']
                simp at hcap
                omega),
            hrearr2]

theorem contractLoopAux_pieces (fuel : ℕ) :
    ∀ l, ∀ piece ∈ contractLoopAux fuel l, piece ≠ [] ∧ ∀ ch ∈ piece, ch ≠ ',' := by
  induction fuel with
  | zero => intro l piece hm; simp [contractLoopAux] at hm
  | succ fuel ih =>
    intro l piece hm
    cases l with
    | nil => simp [contractLoopAux] at hm
    | cons a rest =>
      cases hfr : findRange (a :: rest) with
      | mk hr e =>
        cases hr with
        | false =>
          rw [show contractLoopAux (fuel + 1) (a :: rest) =
              u32ToString a :: contractLoopAux fuel rest by simp [contractLoopAux, hfr]] at hm
          rcases List.mem_cons.mp hm with hm | hm
          · subst hm
            exact ⟨u32ToString_ne_nil a, u32ToString_ne a ',' (by decide)⟩
          · exact ih rest piece hm
        | true =>
          rw [show contractLoopAux (fuel + 1) (a :: rest) =
              (u32ToString a ++ '-' :: u32ToString e) ::
                contractLoopAux fuel (rest.filter (fun x => decide (e < x))) by
            simp [contractLoopAux, hfr]] at hm
          rcases List.mem_cons.mp hm with hm | hm
          · subst hm
            refine ⟨by simp, ?_⟩
            intro ch hch
            rcases List.mem_append.mp hch with hch | hch
            · exact u32ToString_ne a ',' (by decide) ch hch
            · rcases List.mem_cons.mp hch with hch | hch
              · subst hch; decide
              · exact u32ToString_ne e ',' (by decide) ch hch
          · exact ih _ piece hm

theorem contractLoopAux_ne_nil (fuel : ℕ) (l : List ℕ) (hl : l ≠ []) (hf : 0 < fuel) :
    contractLoopAux fuel l ≠ [] := by
  cases fuel with
  | zero => omega
  | succ fuel =>
    cases l with
    | nil => exact absurd rfl hl
    | cons a rest =>
      cases hfr : findRange (a :: rest) with
      | mk hr e => cases hr <;> simp [contractLoopAux, hfr]

theorem joinSep_ne_nil (sep : Str) (p : Str) (ps : List Str) (hp : p ≠ []) :
    joinSep sep (p :: ps) ≠ [] := by
  cases ps with
  | nil => exact hp
  | cons q qs => simp [joinSep, hp]

theorem insertionSort_reverse_of_sorted (l : List ℕ) (hs : List.Sorted (fun a b => a ≤ b) l) :
    List.insertionSort (fun a b => a ≤ b) l.reverse = l :=
  List.eq_of_perm_of_sorted ((List.perm_insertionSort _ _).trans (List.reverse_perm l))
    (List.sorted_insertionSort _ _) hs

theorem contract_roundtrip_sorted (l : List ℕ) (hsort : List.Sorted (fun a b => a < b) l)
    (hne : l ≠ []) (hbound : ∀ x ∈ l, x < 2 ^ 32) (hlen : l.length ≤ 500) :
    getVersions (joinSep [','] (contractLoop l)) = .ok l := by
  have hnodup : l.Nodup := hsort.imp (fun h => Nat.ne_of_lt h)
  have hpieces := contractLoopAux_pieces l.length l
  have hpne : contractLoop l ≠ [] :=
    contractLoopAux_ne_nil l.length l hne (List.length_pos.mpr hne)
  have hstring_ne : joinSep [','] (contractLoop l) ≠ [] := by
    cases hp : contractLoop l with
    | nil => exact absurd hp hpne
    | cons p ps =>
      have hppne : p ≠ [] := by
        refine (hpieces p ?_).1
        rw [show contractLoopAux l.length l = p :: ps from hp]
        simp
      exact joinSep_ne_nil [','] p ps hppne
  unfold getVersions
  rw [if_neg (by simp [List.isEmpty_iff, hstring_ne]),
    show splitOnChar ',' (joinSep [','] (contractLoop l)) = contractLoop l from
      joinSepChar_split ',' (contractLoop l) hpne
        (fun piece hm ch hc => (hpieces piece hm).2 ch hc),
    show getVersionsLoop (contractLoop l) [] = .ok (l.reverse ++ []) from
      getVersionsLoop_contract l.length l [] le_rfl hsort hbound
        (by rw [List.append_nil, List.nodup_reverse]; exact hnodup)
        (by simpa using hlen)]
  simp [insertionSort_reverse_of_sorted l (hsort.imp (fun h => le_of_lt h))]

/-- C2 counterexample: the empty VersionSet does not round-trip.
contract_protocol_list(∅) is the empty string, and get_versions rejects the
empty string with an error instead of returning the empty set. -/
theorem c2_empty_set_counterexample :
    contractProtocolList (∅ : Finset ℕ) = [] ∧
      getVersions (contractProtocolList (∅ : Finset ℕ)) =
        .error ("version string is empty") := by
  constructor
  · rw [contractProtocolList, Finset.sort_empty]
    rfl
  · rw [contractProtocolList, Finset.sort_empty]
    rfl

/-- C2 (amended): for every non-empty VersionSet S of size at most 500 whose
elements are u32 values, parsing the compressed text of S succeeds and
returns exactly the elements of S in ascending order. (The original claim
also included the empty set, which fails: see the counterexample.) -/
theorem c2_roundtrip_nonempty (S : Finset ℕ) (hne : S.Nonempty) (hcard : S.card ≤ 500)
    (hbound : ∀ x ∈ S, x < 2 ^ 32) :
    getVersions (contractProtocolList S) = .ok (S.sort (fun a b => a ≤ b)) := by
  have hsorted : List.Sorted (fun a b => a < b) (S.sort (fun a b => a ≤ b)) :=
    Finset.sort_sorted_lt S
  have hlne : S.sort (fun a b => a ≤ b) ≠ [] := by
    intro h
    have hc : 0 < S.card := Finset.card_pos.mpr hne
    have hlen := Finset.length_sort (α := ℕ) (fun a b => a ≤ b) (s := S)
    rw [h] at hlen
    simp at hlen
    omega
  exact contract_roundtrip_sorted _ hsorted hlne
    (fun x hx => hbound x ((Finset.mem_sort _).mp hx))
    (by rw [Finset.length_sort]; exact hcard)

/-- C2 witness: the amended round trip applied at S = {1, 3}. -/
theorem c2_roundtrip_nonempty_witness :
    getVersions (contractProtocolList ({1, 3} : Finset ℕ)) =
      .ok (({1, 3} : Finset ℕ).sort (fun a b => a ≤ b)) :=
  c2_roundtrip_nonempty ({1, 3} : Finset ℕ) (by decide) (by decide) (by decide)

/-- C3 (code-bug evidence): get_versions("3-5,4") returns [3, 4, 4, 5].
Vec::dedup runs before the final sort, so it only removes consecutive
duplicates; the bare integer 4, which also lies inside the range 3-5, is
kept, and the result is not duplicate-free. -/
theorem c3_duplicate_output : getVersions (("3-5,4").toList) = .ok [3, 4, 4, 5] := by
  decide

/-- C6: parsing a single range whose expansion exceeds 500 elements fails
with the TooManyVersions error, and parsing a single range whose expansion
has exactly 500 elements succeeds. -/
theorem c6_expansion_cap (low high : ℕ) (hle : low ≤ high) (hh : high < 2 ^ 32) :
    (500 < high + 1 - low →
      getVersions (u32ToString low ++ '-' :: u32ToString high) =
        .error ("Too many versions to expand")) ∧
    (high + 1 - low = 500 →
      getVersions (u32ToString low ++ '-' :: u32ToString high) =
        .ok (List.range' low 500)) := by
  have hl32 : low < 2 ^ 32 := lt_of_le_of_lt hle hh
  have hsplit : splitOnChar ',' (u32ToString low ++ '-' :: u32ToString high) =
      [u32ToString low ++ '-' :: u32ToString high] := by
    apply splitOnChar_eq_self
    intro ch hm
    rcases List.mem_append.mp hm with hm | hm
    · exact u32ToString_ne low ',' (by decide) ch hm
    · rcases List.mem_cons.mp hm with hm | hm
      · subst hm; decide
      · exact u32ToString_ne high ',' (by decide) ch hm
  have hne : (u32ToString low ++ '-' :: u32ToString high) ≠ [] := by simp
  have hnodup : (List.range' low (high + 1 - low)).reverse.Nodup := by
    rw [List.nodup_reverse]
    exact List.nodup_range' _ _
  have hloop : getVersionsLoop [u32ToString low ++ '-' :: u32ToString high] [] =
      if MAX_PROTOCOLS_TO_EXPAND < high + 1 - low then
        .error ("Too many versions to expand")
      else .ok ((List.range' low (high + 1 - low)).reverse) := by
    simp only [getVersionsLoop, if_pos (show ('-') ∈ u32ToString low ++ '-' :: u32ToString high by simp),
      expandVersionRange_eval low high hl32 hh, foldl_push_front, List.append_nil]
    rw [rustDedup_eq_self _ hnodup]
    simp only [List.length_reverse, List.length_range']
  constructor
  · intro hbig
    unfold getVersions
    rw [if_neg (by simp [List.isEmpty_iff, hne]), hsplit, hloop,
      if_pos (by simpa [MAX_PROTOCOLS_TO_EXPAND] using hbig)]
  · intro h500
    unfold getVersions
    rw [if_neg (by simp [List.isEmpty_iff, hne]), hsplit, hloop,
      if_neg (by simp [MAX_PROTOCOLS_TO_EXPAND]; omega), h500]
    have hs : List.Sorted (fun a b => a ≤ b) (List.range' low 500) :=
      (List.pairwise_lt_range' low 500).imp (fun h => le_of_lt h)
    show Except.ok (List.insertionSort (fun a b => a ≤ b) ((List.range' low 500).reverse)) =
      Except.ok (List.range' low 500)
    rw [insertionSort_reverse_of_sorted _ hs]

/-- C6 witness: the cap theorem applied at the ranges 1-501 and 1-500. -/
theorem c6_expansion_cap_witness :
    getVersions (u32ToString 1 ++ '-' :: u32ToString 501) =
        .error ("Too many versions to expand") ∧
      getVersions (u32ToString 1 ++ '-' :: u32ToString 500) =
        .ok (List.range' 1 500) :=
  ⟨(c6_expansion_cap 1 501 (by norm_num) (by norm_num)).1 (by norm_num),
    (c6_expansion_cap 1 500 (by norm_num) (by norm_num)).2 (by norm_num)⟩

/-- C7: for valid decimal u32 bounds with low > high, expand_version_range
on "low-high" succeeds and returns the empty sequence. -/
theorem c7_inverted_range_empty (low high : ℕ) (hgt : high < low) (hl : low < 2 ^ 32) :
    expandVersionRange (u32ToString low ++ '-' :: u32ToString high) = .ok [] := by
  have hh : high < 2 ^ 32 := lt_trans hgt hl
  rw [expandVersionRange_eval low high hl hh, show high + 1 - low = 0 by omega]
  rfl

/-- C7 witness: the inverted range 5-3. -/
theorem c7_inverted_range_empty_witness :
    expandVersionRange (u32ToString 5 ++ '-' :: u32ToString 3) = .ok [] :=
  c7_inverted_range_empty 5 3 (by norm_num) (by norm_num)

/-- C5 (code-bug evidence): on a list that parses successfully but has no
entry for the queried protocol, protover_string_supports_protocol indexes
the HashMap at a missing key and panics (modelled as none) instead of
returning false as its own documentation promises. -/
theorem c5_missing_protocol_panics :
    protoverStringSupportsProtocol (("Link=1").toList) Proto.Cons 1 = none := by
  decide

/-- C10: all_supported on any input made only of whitespace characters
(including the empty string) returns (true, ""): an empty advertised
capability list is accepted as fully supported. -/
theorem c10_whitespace_only_accepted (s : Str) (h : ∀ c ∈ s, isRustWhitespace c = true) :
    allSupported s = (true, []) := by
  unfold allSupported
  rw [splitWhitespace_all_ws s h]
  rfl

/-- C10 witness: a space-tab-space input and, through it, every whitespace
string of that shape. -/
theorem c10_whitespace_only_accepted_witness :
    allSupported ((" \t ").toList) = (true, []) :=
  c10_whitespace_only_accepted _ (by decide)

theorem parseProtocolsAux_ok (es : List Str) :
    ∀ acc, (∀ e ∈ es, (getProtoAndVers e).isOk = true) →
      ∃ m, parseProtocolsAux es acc = .ok m := by
  induction es with
  | nil => intro acc _; exact ⟨acc, rfl⟩
  | cons e rest ih =>
    intro acc h
    cases hge : getProtoAndVers e with
    | error err =>
      have hok := h e (by simp)
      rw [hge] at hok
      simp [Except.isOk, Except.toBool] at hok
    | ok nv =>
      obtain ⟨m, hm⟩ := ih (hmInsert nv.1 nv.2 acc) (fun x hx => h x (by simp [hx]))
      exact ⟨m, by simp [parseProtocolsAux, hge, hm]⟩

theorem parseProtocolsAux_error_of_mem_nil (es : List Str) :
    ∀ acc, ([] : Str) ∈ es → ∃ msg, parseProtocolsAux es acc = .error msg := by
  induction es with
  | nil => intro acc h; simp at h
  | cons e rest ih =>
    intro acc h
    cases hge : getProtoAndVers e with
    | error err => exact ⟨err, by simp [parseProtocolsAux, hge]⟩
    | ok nv =>
      have hne : e ≠ [] := by
        intro he
        subst he
        simp [getProtoAndVers, splitn2] at hge
      have hmem : ([] : Str) ∈ rest := by
        rcases List.mem_cons.mp h with h | h
        · exact absurd h.symm hne
        · exact h
      obtain ⟨msg, hmsg⟩ := ih (hmInsert nv.1 nv.2 acc) hmem
      exact ⟨msg, by simp [parseProtocolsAux, hge, hmsg]⟩

theorem splitOnChar_cons_sep (sep : Char) (y : Str) :
    splitOnChar sep (sep :: y) = [] :: splitOnChar sep y := by
  unfold splitOnChar
  cases hy : splitOnP (fun c => c == sep) y with
  | nil => exact absurd hy (splitOnP_ne_nil _ y)
  | cons q qs => simp [splitOnP, hy]

/-- C8 counterexample: the strict capability-string parser does not split on
general ASCII whitespace. "Link=1 Cons=1" parses successfully, but the same
well-formed entries separated by a tab, or by two spaces, produce parse
errors instead of the same successfully parsed CapabilityMap. -/
theorem c8_whitespace_counterexample :
    parseProtocolsFromString (("Link=1 Cons=1").toList) =
        .ok [(Proto.Link, [1]), (Proto.Cons, [1])] ∧
      parseProtocolsFromString (("Link=1\tCons=1").toList) =
        .error ("invalid protocol entry") ∧
      parseProtocolsFromString (("Link=1  Cons=1").toList) =
        .error ("invalid protover entry") :=
  ⟨by decide, by decide, by decide⟩

/-- C8 (amended): the strict parser splits its input on single space
characters only. Well-formed space-free entries joined by single spaces
parse successfully; any input with two consecutive spaces fails to parse;
and a tab is not treated as a separator (the concrete tab-separated pair of
entries fails to parse). -/
theorem c8_single_space_split :
    (∀ es : List Str, es ≠ [] →
        (∀ e ∈ es, (getProtoAndVers e).isOk = true ∧ (' ') ∉ e) →
        ∃ m, parseProtocolsFromString (joinSep [' '] es) = .ok m) ∧
      (∀ a b : Str, ∃ msg,
        parseProtocolsFromString (a ++ ' ' :: ' ' :: b) = .error msg) ∧
      parseProtocolsFromString (("Link=1\tCons=1").toList) =
        .error ("invalid protocol entry") := by
  refine ⟨?_, ?_, by decide⟩
  · intro es hne h
    unfold parseProtocolsFromString
    rw [joinSepChar_split ' ' es hne
      (fun piece hm ch hc hce => (h piece hm).2 (hce ▸ hc))]
    exact parseProtocolsAux_ok es [] (fun e he => (h e he).1)
  · intro a b
    unfold parseProtocolsFromString parseProtocols
    apply parseProtocolsAux_error_of_mem_nil
    rw [splitOnChar_sep, splitOnChar_cons_sep]
    exact List.mem_append_right _ (by simp)

/-- C8 witness: the amended claim applied at the entries Link=1 and Cons=1
and at a concrete double-space input. -/
theorem c8_single_space_split_witness :
    (∃ m, parseProtocolsFromString
        (joinSep [' '] [("Link=1").toList, ("Cons=1").toList]) = .ok m) ∧
      (∃ msg, parseProtocolsFromString
        (("a").toList ++ ' ' :: ' ' :: ("b").toList) = .error msg) :=
  ⟨c8_single_space_split.1 [("Link=1").toList, ("Cons=1").toList] (by decide) (by decide),
    c8_single_space_split.2.1 (("a").toList) (("b").toList)⟩

/-! ### The voting engine: threshold membership and occurrence counting -/

theorem castUsize_of_nonneg (t : Int) (h0 : 0 ≤ t) (h1 : t < 2 ^ 64) :
    castUsize t = t.toNat := by
  unfold castUsize
  rw [Int.emod_eq_of_lt h0 h1]

theorem mem_threshold_foldl (full : List ℕ) (t : Int) (l : List ℕ) (s0 : Finset ℕ) (v : ℕ) :
    (v ∈ l.foldl (fun s version =>
        if version ∈ s then s
        else if castUsize t ≤ full.count version then insert version s else s) s0) ↔
      v ∈ s0 ∨ (v ∈ l ∧ castUsize t ≤ full.count v) := by
  induction l generalizing s0 with
  | nil => simp
  | cons x xs ih =>
    simp only [List.foldl_cons]
    by_cases hx : x ∈ s0
    · rw [if_pos hx, ih]
      constructor
      · rintro (h | ⟨hv, hc⟩)
        · exact Or.inl h
        · exact Or.inr ⟨List.mem_cons_of_mem _ hv, hc⟩
      · rintro (h | ⟨hv, hc⟩)
        · exact Or.inl h
        · rcases List.mem_cons.mp hv with rfl | hv
          · exact Or.inl hx
          · exact Or.inr ⟨hv, hc⟩
    · rw [if_neg hx]
      by_cases hc : castUsize t ≤ full.count x
      · rw [if_pos hc, ih]
        constructor
        · rintro (h | ⟨hv, hcc⟩)
          · rcases Finset.mem_insert.mp h with rfl | h
            · exact Or.inr ⟨by simp, hc⟩
            · exact Or.inl h
          · exact Or.inr ⟨List.mem_cons_of_mem _ hv, hcc⟩
        · rintro (h | ⟨hv, hcc⟩)
          · exact Or.inl (Finset.mem_insert_of_mem h)
          · rcases List.mem_cons.mp hv with rfl | hv
            · exact Or.inl (Finset.mem_insert_self _ _)
            · exact Or.inr ⟨hv, hcc⟩
      · rw [if_neg hc, ih]
        constructor
        · rintro (h | ⟨hv, hcc⟩)
          · exact Or.inl h
          · exact Or.inr ⟨List.mem_cons_of_mem _ hv, hcc⟩
        · rintro (h | ⟨hv, hcc⟩)
          · exact Or.inl h
          · rcases List.mem_cons.mp hv with rfl | hv
            · exact absurd hcc hc
            · exact Or.inr ⟨hv, hcc⟩

theorem mem_meetsThreshold (versions : List ℕ) (t : Int) (v : ℕ) :
    v ∈ meetsThreshold versions t ↔
      v ∈ versions ∧ castUsize t ≤ versions.count v := by
  unfold meetsThreshold
  rw [mem_threshold_foldl versions t versions ∅ v]
  simp

theorem lookupCount_pwdInsert (name : Str) (vers : List ℕ) (m : List (Str × List ℕ))
    (p : Str) (v : ℕ) :
    lookupCount p v (pwdInsert name vers m) =
      lookupCount p v m + (if p = name then vers.count v else 0) := by
  induction m with
  | nil =>
    by_cases hp : name = p
    · simp [pwdInsert, lookupCount, assocLookup, hp]
    · have hpn : ¬ p = name := fun h => hp h.symm
      simp [pwdInsert, lookupCount, assocLookup, hp, hpn]
  | cons kv rest ih =>
    by_cases hk : kv.1 = name
    · simp only [pwdInsert, if_pos hk]
      by_cases hp : kv.1 = p
      · have hpn : p = name := hp ▸ hk
        simp [lookupCount, assocLookup, hp, hpn, List.count_append]
      · have hpn : ¬ p = name := fun h => hp (hk ▸ h.symm)
        simp [lookupCount, assocLookup, hp, hpn]
    · simp only [pwdInsert, if_neg hk]
      by_cases hp : kv.1 = p
      · have hpn : ¬ p = name := fun h => hk (by rw [hp, h])
        simp [lookupCount, assocLookup, hp, hpn]
      · have hl : lookupCount p v (kv :: pwdInsert name vers rest) =
            lookupCount p v (pwdInsert name vers rest) := by
          simp [lookupCount, assocLookup, hp]
        have hr : lookupCount p v (kv :: rest) = lookupCount p v rest := by
          simp [lookupCount, assocLookup, hp]
        rw [hl, hr, ih]

theorem count_pair_map (name : Str) (vs : List ℕ) (p : Str) (v : ℕ) :
    (vs.map (fun x => (name, x))).count (p, v) =
      if p = name then vs.count v else 0 := by
  induction vs with
  | nil => simp
  | cons x xs ih =>
    simp only [List.map_cons, List.count_cons, ih]
    by_cases hp : p = name
    · subst hp
      by_cases hv : v = x <;> simp [hv, Prod.ext_iff]
    · simp only [Prod.ext_iff, List.count_cons, ih, if_neg hp]
      simp [hp]
      exact fun h => absurd h.symm hp

theorem lookupCount_tokens (ts : List Str) :
    ∀ (m : List (Str × List ℕ)) (p : Str) (v : ℕ),
      lookupCount p v (ts.foldl (fun uniques x =>
          match parseToken x with
          | none => uniques
          | some nv => pwdInsert nv.1 nv.2 uniques) m) =
        lookupCount p v m +
          ((ts.map (fun x =>
            match parseToken x with
            | none => ([] : List (Str × ℕ))
            | some nv => nv.2.map (fun w => (nv.1, w)))).flatten).count (p, v) := by
  induction ts with
  | nil => intro m p v; simp
  | cons x ts ih =>
    intro m p v
    simp only [List.foldl_cons, List.map_cons, List.flatten_cons, List.count_append]
    cases hx : parseToken x with
    | none => simp [hx, ih]
    | some nv =>
      simp only [hx]
      rw [ih (pwdInsert nv.1 nv.2 m) p v, lookupCount_pwdInsert, count_pair_map]
      omega

theorem lookupCount_core (protos : List Str) (p : Str) (v : ℕ) :
    lookupCount p v (parseProtocolsWithDuplicatesCore protos) =
      (parsedOccurrences protos).count (p, v) := by
  unfold parseProtocolsWithDuplicatesCore parsedOccurrences
  rw [lookupCount_tokens]
  simp [lookupCount, assocLookup]

/-- C1: for every list of reports and every threshold t with 1 ≤ t (t an
i32, so t < 2^31), a version v is in the version set that compute_vote
retains and serializes for protocol name p iff at least t of the
(name, version) occurrences accumulated across all tolerant-parsed reports
are (p, v). -/
theorem c1_threshold_iff (protos : List Str) (p : Str) (v : ℕ) (t : Int)
    (h1 : 1 ≤ t) (h2 : t < 2 ^ 31) :
    v ∈ voteSet protos t p ↔
      t.toNat ≤ (parsedOccurrences protos).count (p, v) := by
  have hcast : castUsize t = t.toNat := by
    apply castUsize_of_nonneg t (by omega)
    have hpow : (2 : Int) ^ 31 ≤ 2 ^ 64 := by norm_num
    omega
  have hcount := lookupCount_core protos p v
  have ht1 : 1 ≤ t.toNat := by omega
  unfold voteSet
  cases hl : assocLookup p (parseProtocolsWithDuplicatesCore protos) with
  | none =>
    have h0 : (parsedOccurrences protos).count (p, v) = 0 := by
      rw [← hcount]
      unfold lookupCount
      rw [hl]
    show (v ∈ (∅ : Finset ℕ)) ↔ _
    rw [h0]
    simp
    omega
  | some versions =>
    have hv : versions.count v = (parsedOccurrences protos).count (p, v) := by
      rw [← hcount]
      unfold lookupCount
      rw [hl]
    show v ∈ meetsThreshold versions t ↔ _
    rw [mem_meetsThreshold, hcast, hv]
    constructor
    · rintro ⟨_, hc⟩
      exact hc
    · intro hc
      refine ⟨?_, hc⟩
      rw [← hv] at hc
      exact List.count_pos_iff.mp (by omega)

/-- C1 witness: the threshold iff applied at one report, protocol Link,
version 1, threshold 1. -/
theorem c1_threshold_iff_witness :
    (1 : ℕ) ∈ voteSet [("Link=1").toList] 1 (("Link").toList) ↔
      (1 : Int).toNat ≤
        (parsedOccurrences [("Link=1").toList]).count ((("Link").toList), 1) :=
  c1_threshold_iff _ _ _ _ (by norm_num) (by norm_num)

/-- C4 counterexample: with the single report "Link=1" and threshold -1, the
pair (Link, 1) is reported once, but the i32 → usize cast wraps -1 to
2^64 - 1, so nothing is retained and compute_vote returns the empty string
instead of keeping every reported pair. -/
theorem c4_negative_threshold_counterexample :
    parsedOccurrences [("Link=1").toList] = [((("Link").toList), 1)] ∧
      voteSet [("Link=1").toList] (-1) (("Link").toList) = ∅ ∧
      computeVote [("Link=1").toList] (-1) = [] := by
  refine ⟨by decide, by decide, ?_⟩
  show writeVoteToString
      (finalOutputList (parseProtocolsWithDuplicatesCore [("Link=1").toList]) (-1)) = []
  have hcore : parseProtocolsWithDuplicatesCore [("Link=1").toList] =
      [((("Link").toList), [1])] := by decide
  have hmt : meetsThreshold [1] (-1) = ∅ := by decide
  have hcontract : contractProtocolList (∅ : Finset ℕ) = [] := by
    rw [contractProtocolList, Finset.sort_empty]
    rfl
  have hfinal : finalOutputList [((("Link").toList), [1])] (-1) = [] := by
    unfold finalOutputList
    simp only [List.foldl_cons, List.foldl_nil, hmt, hcontract]
    rfl
  rw [hcore, hfinal]
  rfl

/-- C4 (amended): for threshold t = 0 (the cast is 0 and every count
qualifies), compute_vote retains every (protocol, version) pair that was
reported at least once; for negative t the cast wraps to a huge value and
nothing is retained (see the counterexample). -/
theorem c4_zero_threshold (protos : List Str) (p : Str) (v : ℕ)
    (h : (p, v) ∈ parsedOccurrences protos) :
    v ∈ voteSet protos 0 p := by
  have hcast : castUsize 0 = 0 := by decide
  have hcount := lookupCount_core protos p v
  have hpos : 0 < (parsedOccurrences protos).count (p, v) := List.count_pos_iff.mpr h
  unfold voteSet
  cases hl : assocLookup p (parseProtocolsWithDuplicatesCore protos) with
  | none =>
    exfalso
    have h0 : (parsedOccurrences protos).count (p, v) = 0 := by
      rw [← hcount]
      unfold lookupCount
      rw [hl]
    omega
  | some versions =>
    have hv : versions.count v = (parsedOccurrences protos).count (p, v) := by
      rw [← hcount]
      unfold lookupCount
      rw [hl]
    show v ∈ meetsThreshold versions 0
    rw [mem_meetsThreshold, hcast]
    exact ⟨List.count_pos_iff.mp (by omega), by omega⟩

/-- C4 witness: the zero-threshold retention applied at one report. -/
theorem c4_zero_threshold_witness :
    (1 : ℕ) ∈ voteSet [("Link=1").toList] 0 (("Link").toList) :=
  c4_zero_threshold _ _ _ (by decide)

/-! ### Lexicographic string order lemmas -/

theorem strLeB_total (a : Str) : ∀ b, strLeB a b = true ∨ strLeB b a = true := by
  induction a with
  | nil => intro b; left; rfl
  | cons x xs ih =>
    intro b
    cases b with
    | nil => right; rfl
    | cons y ys =>
      rcases lt_trichotomy x y with h | h | h
      · left
        simp [strLeB, h]
      · subst h
        rcases ih ys with h | h
        · left
          simp [strLeB, lt_irrefl, h]
        · right
          simp [strLeB, lt_irrefl, h]
      · right
        simp [strLeB, h]

theorem strLeB_trans (a : Str) :
    ∀ b c, strLeB a b = true → strLeB b c = true → strLeB a c = true := by
  induction a with
  | nil => intro b c _ _; rfl
  | cons x xs ih =>
    intro b c hab hbc
    cases b with
    | nil => simp [strLeB] at hab
    | cons y ys =>
      cases c with
      | nil => simp [strLeB] at hbc
      | cons z zs =>
        rcases lt_trichotomy x y with hxy | hxy | hxy
        · rcases lt_trichotomy y z with hyz | hyz | hyz
          · simp [strLeB, lt_trans hxy hyz]
          · subst hyz
            simp [strLeB, hxy]
          · rw [show strLeB (y :: ys) (z :: zs) = false by
              simp [strLeB, hyz, asymm hyz]] at hbc
            exact absurd hbc (by simp)
        · subst hxy
          rcases lt_trichotomy x z with hyz | hyz | hyz
          · simp [strLeB, hyz]
          · subst hyz
            rw [show strLeB (x :: xs) (x :: ys) = strLeB xs ys by
              simp [strLeB, lt_irrefl]] at hab
            rw [show strLeB (x :: ys) (x :: zs) = strLeB ys zs by
              simp [strLeB, lt_irrefl]] at hbc
            simp [strLeB, lt_irrefl, ih ys zs hab hbc]
          · rw [show strLeB (x :: ys) (z :: zs) = false by
              simp [strLeB, hyz, asymm hyz]] at hbc
            exact absurd hbc (by simp)
        · rw [show strLeB (x :: xs) (y :: ys) = false by
            simp [strLeB, hxy, asymm hxy]] at hab
          exact absurd hab (by simp)

theorem StrLe_total : ∀ a b : Str, StrLe a b ∨ StrLe b a :=
  fun a b => strLeB_total a b

theorem StrLe_trans : ∀ a b c : Str, StrLe a b → StrLe b c → StrLe a c :=
  fun a b c => strLeB_trans a b c

/-! ### Keys of the accumulated vote maps -/

theorem pwdInsert_keys (name : Str) (vers : List ℕ) (m : List (Str × List ℕ)) :
    (pwdInsert name vers m).map Prod.fst =
      if name ∈ m.map Prod.fst then m.map Prod.fst else m.map Prod.fst ++ [name] := by
  induction m with
  | nil => simp [pwdInsert]
  | cons kv rest ih =>
    by_cases hk : kv.1 = name
    · simp [pwdInsert, hk]
    · by_cases hm : name ∈ rest.map Prod.fst
      · simp [pwdInsert, hk, ih, hm, Ne.symm hk]
      · simp [pwdInsert, hk, ih, hm, Ne.symm hk]

theorem pwdInsert_keys_nodup (name : Str) (vers : List ℕ) (m : List (Str × List ℕ))
    (h : (m.map Prod.fst).Nodup) : ((pwdInsert name vers m).map Prod.fst).Nodup := by
  rw [pwdInsert_keys]
  by_cases hm : name ∈ m.map Prod.fst
  · simpa [hm] using h
  · simp only [hm, if_neg, ite_false]
    rw [List.nodup_append]
    refine ⟨h, by simp, ?_⟩
    intro a ha hb
    simp only [List.mem_singleton] at hb
    subst hb
    exact hm ha

theorem core_keys_nodup_aux (ts : List Str) :
    ∀ m : List (Str × List ℕ), (m.map Prod.fst).Nodup →
      ((ts.foldl (fun uniques x =>
          match parseToken x with
          | none => uniques
          | some nv => pwdInsert nv.1 nv.2 uniques) m).map Prod.fst).Nodup := by
  induction ts with
  | nil => intro m h; exact h
  | cons x ts ih =>
    intro m h
    simp only [List.foldl_cons]
    cases hx : parseToken x with
    | none => simpa [hx] using ih m h
    | some nv =>
      simp only [hx]
      exact ih _ (pwdInsert_keys_nodup nv.1 nv.2 m h)

theorem core_keys_nodup (protos : List Str) :
    ((parseProtocolsWithDuplicatesCore protos).map Prod.fst).Nodup :=
  core_keys_nodup_aux _ [] (by simp)

/-! ### The final_output map of compute_vote -/

theorem hmInsert_of_not_mem {α β : Type} [DecidableEq α] (k : α) (v : β)
    (m : List (α × β)) (h : k ∉ m.map Prod.fst) : hmInsert k v m = m ++ [(k, v)] := by
  induction m with
  | nil => rfl
  | cons kv rest ih =>
    have hk : kv.1 ≠ k := by
      intro he
      exact h (by simp [← he])
    simp only [hmInsert, if_neg hk, List.cons_append, List.cons.injEq, true_and]
    exact ih (fun hmem => h (by simp [hmem]))

theorem assocLookup_none_iff {β : Type} (k : Str) (m : List (Str × β)) :
    assocLookup k m = none ↔ k ∉ m.map Prod.fst := by
  induction m with
  | nil => simp [assocLookup]
  | cons kv rest ih =>
    by_cases hk : kv.1 = k
    · simp only [assocLookup, if_pos hk, List.map_cons, List.mem_cons]
      constructor
      · intro h
        exact absurd h (Option.some_ne_none _)
      · intro h
        exact absurd (fun hor => h (Or.inl hk.symm)) (fun hcon => hcon h)
    · simp only [assocLookup, if_neg hk, List.map_cons, List.mem_cons]
      rw [ih]
      constructor
      · intro h hmem
        rcases hmem with hmem | hmem
        · exact hk hmem.symm
        · exact h hmem
      · intro h hmem
        exact h (Or.inr hmem)

theorem foldl_hmInsert_fresh (t : Int) (l : List (Str × List ℕ)) :
    ∀ acc : List (Str × Str),
      (l.map Prod.fst).Nodup →
      (∀ k ∈ acc.map Prod.fst, k ∉ l.map Prod.fst) →
      l.foldl (fun acc pv =>
          let contracted := contractProtocolList (meetsThreshold pv.2 t)
          if !contracted.isEmpty then hmInsert pv.1 contracted acc else acc) acc =
        acc ++ l.filterMap (fun pv =>
          let contracted := contractProtocolList (meetsThreshold pv.2 t)
          if contracted.isEmpty then none else some (pv.1, contracted)) := by
  induction l with
  | nil => intro acc _ _; simp
  | cons pv rest ih =>
    intro acc hnodup hdisj
    have hnodup2 : (rest.map Prod.fst).Nodup := by
      simp only [List.map_cons, List.nodup_cons] at hnodup
      exact hnodup.2
    have hhead : pv.1 ∉ rest.map Prod.fst := by
      simp only [List.map_cons, List.nodup_cons] at hnodup
      exact hnodup.1
    simp only [List.foldl_cons, List.filterMap_cons]
    by_cases hc : (contractProtocolList (meetsThreshold pv.2 t)).isEmpty = true
    · rw [show (if (!(contractProtocolList (meetsThreshold pv.2 t)).isEmpty) = true then
            hmInsert pv.1 (contractProtocolList (meetsThreshold pv.2 t)) acc else acc) =
          acc from by rw [hc]; rfl,
        show (if (contractProtocolList (meetsThreshold pv.2 t)).isEmpty = true then
            (none : Option (Str × Str))
          else some (pv.1, contractProtocolList (meetsThreshold pv.2 t))) = none from by
          rw [hc]; rfl]
      exact ih acc hnodup2 (fun k hk hmem => hdisj k hk (by simp [hmem]))
    · have hc2 : (contractProtocolList (meetsThreshold pv.2 t)).isEmpty = false := by
        simpa using hc
      have hfresh : pv.1 ∉ acc.map Prod.fst := fun hmem => hdisj pv.1 hmem (by simp)
      rw [show (if (!(contractProtocolList (meetsThreshold pv.2 t)).isEmpty) = true then
            hmInsert pv.1 (contractProtocolList (meetsThreshold pv.2 t)) acc else acc) =
          hmInsert pv.1 (contractProtocolList (meetsThreshold pv.2 t)) acc from by
          rw [hc2]; rfl,
        show (if (contractProtocolList (meetsThreshold pv.2 t)).isEmpty = true then
            (none : Option (Str × Str))
          else some (pv.1, contractProtocolList (meetsThreshold pv.2 t))) =
          some (pv.1, contractProtocolList (meetsThreshold pv.2 t)) from by
          rw [hc2]; rfl,
        hmInsert_of_not_mem _ _ _ hfresh,
        ih (acc ++ [(pv.1, contractProtocolList (meetsThreshold pv.2 t))]) hnodup2
          (by
            intro k hk
            simp only [List.map_append, List.mem_append, List.map_cons,
              List.mem_singleton] at hk
            rcases hk with hk | hk
            · exact fun hmem => hdisj k hk (by simp [hmem])
            · intro hmem
              have hkp : k = pv.1 := by simpa using hk
              rw [hkp] at hmem
              exact hhead hmem)]
      simp [List.append_assoc]

theorem contractProtocolList_eq_nil_iff (s : Finset ℕ) :
    contractProtocolList s = [] ↔ s = ∅ := by
  constructor
  · intro h
    by_contra hne
    have hcard : 0 < s.card := Finset.card_pos.mpr (Finset.nonempty_iff_ne_empty.mpr hne)
    have hlne : s.sort (fun a b => a ≤ b) ≠ [] := by
      intro hnil
      have hlen := Finset.length_sort (α := ℕ) (fun a b => a ≤ b) (s := s)
      rw [hnil] at hlen
      simp at hlen
      omega
    have hpne : contractLoop (s.sort (fun a b => a ≤ b)) ≠ [] :=
      contractLoopAux_ne_nil _ _ hlne (List.length_pos.mpr hlne)
    cases hp : contractLoop (s.sort (fun a b => a ≤ b)) with
    | nil => exact absurd hp hpne
    | cons p ps =>
      have hppne : p ≠ [] := by
        refine (contractLoopAux_pieces (s.sort (fun a b => a ≤ b)).length
          (s.sort (fun a b => a ≤ b)) p ?_).1
        rw [show contractLoopAux (s.sort (fun a b => a ≤ b)).length
            (s.sort (fun a b => a ≤ b)) = p :: ps from hp]
        simp
      rw [contractProtocolList, hp] at h
      exact joinSep_ne_nil [','] p ps hppne h
  · rintro rfl
    rw [contractProtocolList, Finset.sort_empty]
    rfl

theorem assocLookup_filterMap (t : Int) (l : List (Str × List ℕ)) (p : Str)
    (h : (l.map Prod.fst).Nodup) :
    assocLookup p (l.filterMap (fun pv =>
        let contracted := contractProtocolList (meetsThreshold pv.2 t)
        if contracted.isEmpty then none else some (pv.1, contracted))) =
      (match assocLookup p l with
        | none => none
        | some vers =>
          if (contractProtocolList (meetsThreshold vers t)).isEmpty then none
          else some (contractProtocolList (meetsThreshold vers t))) := by
  induction l with
  | nil => rfl
  | cons kv rest ih =>
    have hnodup2 : (rest.map Prod.fst).Nodup := by
      simp only [List.map_cons, List.nodup_cons] at h
      exact h.2
    have hhead : kv.1 ∉ rest.map Prod.fst := by
      simp only [List.map_cons, List.nodup_cons] at h
      exact h.1
    simp only [List.filterMap_cons]
    by_cases hc : (contractProtocolList (meetsThreshold kv.2 t)).isEmpty = true
    · rw [show (if (contractProtocolList (meetsThreshold kv.2 t)).isEmpty = true then
            (none : Option (Str × Str))
          else some (kv.1, contractProtocolList (meetsThreshold kv.2 t))) = none from by
        rw [hc]; rfl]
      by_cases hp : kv.1 = p
      · have hnone : assocLookup p rest = none :=
          (assocLookup_none_iff p rest).mpr (hp ▸ hhead)
        rw [ih hnodup2, hnone,
          show assocLookup p (kv :: rest) = some kv.2 from by simp [assocLookup, hp]]
        show none = if (contractProtocolList (meetsThreshold kv.2 t)).isEmpty = true then
            none else some (contractProtocolList (meetsThreshold kv.2 t))
        rw [hc]
        rfl
      · rw [ih hnodup2,
          show assocLookup p (kv :: rest) = assocLookup p rest from by
            simp [assocLookup, hp]]
    · have hc2 : (contractProtocolList (meetsThreshold kv.2 t)).isEmpty = false := by
        simpa using hc
      rw [show (if (contractProtocolList (meetsThreshold kv.2 t)).isEmpty = true then
            (none : Option (Str × Str))
          else some (kv.1, contractProtocolList (meetsThreshold kv.2 t))) =
          some (kv.1, contractProtocolList (meetsThreshold kv.2 t)) from by
        rw [hc2]; rfl]
      by_cases hp : kv.1 = p
      · rw [show assocLookup p ((kv.1, contractProtocolList (meetsThreshold kv.2 t)) ::
            rest.filterMap (fun pv =>
              let contracted := contractProtocolList (meetsThreshold pv.2 t)
              if contracted.isEmpty then none else some (pv.1, contracted))) =
            some (contractProtocolList (meetsThreshold kv.2 t)) from by
          simp [assocLookup, hp],
          show assocLookup p (kv :: rest) = some kv.2 from by simp [assocLookup, hp]]
        show some (contractProtocolList (meetsThreshold kv.2 t)) =
          if (contractProtocolList (meetsThreshold kv.2 t)).isEmpty = true then
            none else some (contractProtocolList (meetsThreshold kv.2 t))
        rw [hc2]
        rfl
      · rw [show assocLookup p ((kv.1, contractProtocolList (meetsThreshold kv.2 t)) ::
            rest.filterMap (fun pv =>
              let contracted := contractProtocolList (meetsThreshold pv.2 t)
              if contracted.isEmpty then none else some (pv.1, contracted))) =
            assocLookup p (rest.filterMap (fun pv =>
              let contracted := contractProtocolList (meetsThreshold pv.2 t)
              if contracted.isEmpty then none else some (pv.1, contracted))) from by
          simp [assocLookup, hp],
          ih hnodup2,
          show assocLookup p (kv :: rest) = assocLookup p rest from by
            simp [assocLookup, hp]]

theorem filterMap_keys_sublist (t : Int) (l : List (Str × List ℕ)) :
    ((l.filterMap (fun pv =>
        let contracted := contractProtocolList (meetsThreshold pv.2 t)
        if contracted.isEmpty then none else some (pv.1, contracted))).map
      Prod.fst).Sublist (l.map Prod.fst) := by
  induction l with
  | nil => simp
  | cons kv rest ih =>
    simp only [List.filterMap_cons, List.map_cons]
    by_cases hc : (contractProtocolList (meetsThreshold kv.2 t)).isEmpty = true
    · rw [show (if (contractProtocolList (meetsThreshold kv.2 t)).isEmpty = true then
            (none : Option (Str × Str))
          else some (kv.1, contractProtocolList (meetsThreshold kv.2 t))) = none from by
        rw [hc]; rfl]
      exact ih.cons kv.1
    · have hc2 : (contractProtocolList (meetsThreshold kv.2 t)).isEmpty = false := by
        simpa using hc
      rw [show (if (contractProtocolList (meetsThreshold kv.2 t)).isEmpty = true then
            (none : Option (Str × Str))
          else some (kv.1, contractProtocolList (meetsThreshold kv.2 t))) =
          some (kv.1, contractProtocolList (meetsThreshold kv.2 t)) from by
        rw [hc2]; rfl]
      exact ih.cons₂ kv.1

/-- C9: compute_vote output is canonical and deterministic (in this model a
pure function of reports and threshold): an empty report list yields the
empty string; there is a key list ks, strictly sorted in byte/codepoint
lexicographic order, holding exactly the protocol names whose retained
version set is non-empty (empty sets are omitted); and the output is the
Name=versions pieces for those keys joined by single spaces. -/
theorem c9_canonical_output (protos : List Str) (t : Int) :
    computeVote [] t = [] ∧
      ∃ ks : List Str,
        List.Pairwise StrLt ks ∧
        (∀ p : Str, p ∈ ks ↔ voteSet protos t p ≠ ∅) ∧
        computeVote protos t =
          joinSep [' '] (ks.map (fun k =>
            k ++ '=' :: contractProtocolList (voteSet protos t k))) := by
  refine ⟨rfl, ?_⟩
  by_cases hp0 : protos = []
  · subst hp0
    refine ⟨[], List.Pairwise.nil, ?_, rfl⟩
    intro p
    simp only [List.not_mem_nil, false_iff, ne_eq, not_not]
    rfl
  · have hkeys : ((parseProtocolsWithDuplicatesCore protos).map Prod.fst).Nodup :=
      core_keys_nodup protos
    have hvote_eq : finalOutputList (parseProtocolsWithDuplicatesCore protos) t =
        (parseProtocolsWithDuplicatesCore protos).filterMap (fun pv =>
          let contracted := contractProtocolList (meetsThreshold pv.2 t)
          if contracted.isEmpty then none else some (pv.1, contracted)) := by
      unfold finalOutputList
      rw [foldl_hmInsert_fresh t _ [] hkeys (by simp)]
      rfl
    set vote := finalOutputList (parseProtocolsWithDuplicatesCore protos) t with hvote
    have hvote_keys : (vote.map Prod.fst).Nodup := by
      rw [hvote_eq]
      exact List.Sublist.nodup (filterMap_keys_sublist t _) hkeys
    have hlookup : ∀ p : Str, assocLookup p vote =
        (if (contractProtocolList (voteSet protos t p)).isEmpty then none
          else some (contractProtocolList (voteSet protos t p))) := by
      intro p
      rw [hvote_eq, assocLookup_filterMap t _ p hkeys]
      cases hl : assocLookup p (parseProtocolsWithDuplicatesCore protos) with
      | none =>
        have hvs : voteSet protos t p = ∅ := by
          unfold voteSet
          rw [hl]
        rw [hvs, show contractProtocolList (∅ : Finset ℕ) = [] from
          (contractProtocolList_eq_nil_iff ∅).mpr rfl]
        rfl
      | some vers =>
        have hvs : voteSet protos t p = meetsThreshold vers t := by
          unfold voteSet
          rw [hl]
        rw [hvs]
    refine ⟨List.insertionSort StrLe (vote.map Prod.fst), ?_, ?_, ?_⟩
    · have hsorted : List.Sorted StrLe (List.insertionSort StrLe (vote.map Prod.fst)) :=
        @List.sorted_insertionSort Str StrLe _ ⟨StrLe_total⟩ ⟨StrLe_trans⟩ _
      have hnodup : (List.insertionSort StrLe (vote.map Prod.fst)).Nodup :=
        ((List.perm_insertionSort StrLe _).nodup_iff).mpr hvote_keys
      exact (hsorted.and hnodup).imp (fun h => ⟨h.1, h.2⟩)
    · intro p
      rw [List.mem_insertionSort]
      constructor
      · intro hmem hvs
        have hln : assocLookup p vote ≠ none :=
          fun h => ((assocLookup_none_iff p vote).mp h) hmem
        apply hln
        rw [hlookup p, hvs, show contractProtocolList (∅ : Finset ℕ) = [] from
          (contractProtocolList_eq_nil_iff ∅).mpr rfl]
        rfl
      · intro hvs
        by_contra hmem
        have hnone : assocLookup p vote = none := (assocLookup_none_iff p vote).mpr hmem
        rw [hlookup p] at hnone
        by_cases hc : (contractProtocolList (voteSet protos t p)).isEmpty = true
        · rw [List.isEmpty_iff] at hc
          exact hvs ((contractProtocolList_eq_nil_iff _).mp hc)
        · rw [if_neg hc] at hnone
          exact Option.some_ne_none _ hnone
    · have hcv : computeVote protos t = writeVoteToString vote := by
        unfold computeVote
        rw [if_neg (by simp [List.isEmpty_iff, hp0])]
        rfl
      rw [hcv]
      show joinSep [' ']
          ((List.insertionSort StrLe (vote.map Prod.fst)).map
            (fun key => key ++ '=' :: (assocLookup key vote).getD [])) =
        joinSep [' ']
          ((List.insertionSort StrLe (vote.map Prod.fst)).map
            (fun k => k ++ '=' :: contractProtocolList (voteSet protos t k)))
      congr 1
      apply List.map_congr_left
      intro k hk
      rw [List.mem_insertionSort] at hk
      have hln : assocLookup k vote ≠ none :=
        fun h => ((assocLookup_none_iff k vote).mp h) hk
      rw [hlookup k] at hln ⊢
      by_cases hc : (contractProtocolList (voteSet protos t k)).isEmpty = true
      · exact absurd (by rw [if_pos hc]) hln
      · rw [if_neg hc]
        rfl
